import Mathlib

/-!
Verification development for the korabli-mod-manager install/uninstall core.

The Rust source is shallowly embedded: paths are lists of segments (a
segment is a list of characters, mirroring `PathBuf` components), the
file system is an explicit structure of existing files and directories,
machine integers are `Nat` with explicit bounds where overflow matters,
and fallible operations return values in `Except`/`Option` together with
the resulting state (mirroring `&mut self` methods returning `Result`).
-/

namespace KMM

/-- A path segment: the characters of one `PathBuf` component. -/
abbrev Seg := List Char

/-- A relative path: the component list of a `PathBuf`. -/
abbrev Path := List Seg

/-! ## `sanitize_filename::sanitize` (external crate called by the source)

Modelled from the spec: the spec requires each path segment to be
sanitized independently "to neutralize traversal (`..`) and illegal
filesystem characters"; the `sanitize_filename` crate used by
`sanitize_file_path` removes the illegal characters
`/ ? < > \ : * | "` and control characters, and replaces a segment
consisting only of dots (such as `..`) by the empty string. -/

/-- Characters removed by the sanitizer's illegal-character pass. -/
def isIllegalChar (c : Char) : Bool :=
  c = '/' || c = '?' || c = '<' || c = '>' || c = '\\' || c = ':' ||
  c = '*' || c = '|' || c = '"'

/-- Control characters removed by the sanitizer. -/
def isControlChar (c : Char) : Bool :=
  c.toNat ≤ 0x1f || (0x80 ≤ c.toNat && c.toNat ≤ 0x9f)

/-- Modelled from the spec: per-segment sanitization of the
`sanitize_filename` crate — drop illegal and control characters, then
collapse an all-dots segment (`.`, `..`, …) to the empty segment. -/
def sanitizeSegment (s : Seg) : Seg :=
  let t := s.filter (fun c => !(isIllegalChar c || isControlChar c))
  if t ≠ [] ∧ t.all (· = '.') then [] else t

/-- `str::replace('\\', "/")` on a character list. -/
def replaceBackslashes (s : List Char) : List Char :=
  s.map (fun c => if c = '\\' then '/' else c)

/-- Rust `str::split('/')` on a character list: `""` yields `[""]`,
`"a/"` yields `["a", ""]`. -/
def splitSlash : List Char → List Seg
  | [] => [[]]
  | c :: cs =>
    let rest := splitSlash cs
    if c = '/' then [] :: rest
    else
      match rest with
      | [] => [[c]]
      | seg :: more => (c :: seg) :: more

/-- `sanitize_file_path` from `mod_manager.rs`: normalize backslashes to
forward slashes, split on `/`, sanitize each component, and collect into
a `PathBuf` (whose component view drops empty components). -/
def sanitize_file_path (path : List Char) : Path :=
  (((splitSlash (replaceBackslashes path)).map sanitizeSegment).filter
    (fun seg => seg ≠ []))

/-! ## File-system model

The file system under the resource-mod root is a pair of lists of paths
(used as sets): existing regular files and existing directories. I/O is
idealized as always succeeding; the structural errors the install and
uninstall logic itself raises are kept in `Except`. -/

/-- Existing regular files and directories under the resource-mod root. -/
structure FS where
  files : List Path
  dirs : List Path
deriving Repr, DecidableEq

/-- Rust `path.exists()`: true when the path is an existing file or an
existing directory. -/
def FS.pathExists (fs : FS) (p : Path) : Bool :=
  p ∈ fs.files || p ∈ fs.dirs

/-- Rust `path.is_dir()`. -/
def FS.isDir (fs : FS) (p : Path) : Bool :=
  p ∈ fs.dirs

/-! ## Manifest model (`Record` / `Records` of `mod_manager.rs`) -/

/-- One mod's installation manifest entry. `metadata` is the opaque
`Option<Metadata>` blob (the `Metadata` struct has no fields). -/
structure Record where
  metadata : Option Unit
  update_time : Nat
  version : String
  files : List Path
deriving Repr, DecidableEq

/-- The manifest mapping from mod id to `Record`, modelled as an
association list (the `HashMap` is determined by its mapping). -/
abbrev Records := List (String × Record)

/-- `HashMap::insert`: replace any binding of `id` by the new record. -/
def recordsInsert (id : String) (r : Record) (rs : Records) : Records :=
  (id, r) :: rs.filter (fun p => p.1 ≠ id)

/-- `HashMap::remove` (value discarded). -/
def recordsRemove (id : String) (rs : Records) : Records :=
  rs.filter (fun p => p.1 ≠ id)

/-- The error type of `mod_manager.rs` restricted to the variants the
embedded logic produces: the structural `FileConflict` and
`ResModsDirNotFound`, and `Error::Io` (the `#[from] std::io::Error`
variant, kept abstract) for propagated I/O failures such as a failed
`read_dir`. -/
inductive Error where
  | fileConflict (file : Path)
  | resModsDirNotFound
  | io
deriving Repr, DecidableEq

/-! ## `install_zip_mod`

The Rust code makes two passes: a scan over the archive entries that
pushes every sanitized path onto the new record's `files` list, checks
directory/file existence against the file system as it is at scan time,
and queues each directory-creation or file-copy as an unexecuted boxed
future; then an await phase that runs the queued futures; then the
manifest read-modify-write. A `FileConflict` is returned during the
scan, before any queued future has been awaited. -/

/-- One archive entry, identified by its raw (untrusted) name. -/
structure Entry where
  filename : List Char
deriving Repr, DecidableEq

/-- `async_zip`'s `entry.dir()`: an entry is a directory entry when its
name ends with `/`. -/
def Entry.isDir (e : Entry) : Bool :=
  e.filename.getLast? = some '/'

/-- A queued (not yet executed) directory-creation or file-copy. -/
inductive PendingOp where
  | createDir (p : Path)
  | writeFile (p : Path)
deriving Repr, DecidableEq

/-- Execute one queued operation. `create_dir_all` bookkeeping for
missing ancestors is omitted: no claim depends on ancestor directories. -/
def applyOp (fs : FS) : PendingOp → FS
  | .createDir p => { fs with dirs := p :: fs.dirs }
  | .writeFile p => { fs with files := p :: fs.files }

/-- The scan loop of `install_zip_mod`: returns the record's `files`
list (every sanitized entry path, in archive order) and the queued
operations, or the first file conflict. All existence checks read `fs`,
the file system as it is before any queued operation has run. -/
def scanEntries (fs : FS) : List Entry → Except Error (List Path × List PendingOp)
  | [] => .ok ([], [])
  | e :: rest =>
    let sp := sanitize_file_path e.filename
    if e.isDir then
      if fs.pathExists sp then
        (scanEntries fs rest).map (fun fo => (sp :: fo.1, fo.2))
      else
        (scanEntries fs rest).map (fun fo => (sp :: fo.1, .createDir sp :: fo.2))
    else
      if fs.pathExists sp then .error (.fileConflict sp)
      else
        (scanEntries fs rest).map (fun fo => (sp :: fo.1, .writeFile sp :: fo.2))

/-- `install_zip_mod` of `mod_manager.rs`, threading the file system and
the manifest explicitly; `now` is the `SystemTime::now()` unix-seconds
reading. On error the state components are returned unchanged, which is
faithful to the code: the conflict return happens during the scan,
before any queued future is awaited, and the record is only inserted
into the manifest after all entry writes complete. -/
def install_zip_mod (fs : FS) (man : Records) (entries : List Entry)
    (id : String) (version : String) (now : Nat) :
    Except Error Unit × FS × Records :=
  match scanEntries fs entries with
  | .error e => (.error e, fs, man)
  | .ok (fileList, ops) =>
    let fs' := ops.foldl applyOp fs
    let record : Record :=
      { metadata := none, update_time := now, version := version,
        files := fileList }
    (.ok (), fs', recordsInsert id record man)

/-! ## `uninstall_mod` -/

/-- The deletion loop of `uninstall_mod`: for each recorded path, skip
it when it does not exist or is a directory, otherwise remove the file. -/
def deleteFiles (fs : FS) : List Path → FS
  | [] => fs
  | p :: rest =>
    if !fs.pathExists p then deleteFiles fs rest
    else if fs.isDir p then deleteFiles fs rest
    else deleteFiles { fs with files := fs.files.filter (· ≠ p) } rest

/-- `uninstall_mod` of `mod_manager.rs`: when no record exists for `id`,
remove any stale binding, write the manifest back and report `false`;
otherwise delete each recorded path that exists and is a regular file
and report `true` (the manifest is not rewritten on this path). -/
def uninstall_mod (fs : FS) (man : Records) (id : String) :
    Except Error Bool × FS × Records :=
  match List.lookup id man with
  | none => (.ok false, fs, recordsRemove id man)
  | some record => (.ok true, deleteFiles fs record.files, man)

/-! ## `try_from_game_dir`

The `bin` directory listing is modelled as `Option (List Seg)`: `none`
when `read_dir` fails (absent/unreadable), otherwise the entry names in
iteration order. Per-entry iteration errors are not modelled. -/

/-- The `ModManager` handle: the resource-mod directory path, given as
its components relative to `game_dir/bin`. -/
structure ModManager where
  res_mods_path : List Seg
deriving Repr, DecidableEq

/-- Rust `str::parse::<u64>()`: optional leading `+` sign, then one or
more ASCII digits, value below `2^64`. -/
def parseU64 (s : Seg) : Option Nat :=
  let digits := match s with
    | '+' :: rest => rest
    | _ => s
  if digits = [] ∨ ¬(digits.all Char.isDigit) then none
  else
    let n := digits.foldl (fun a c => a * 10 + (c.toNat - 48)) 0
    if n < 2 ^ 64 then some n else none

/-- One step of the fold in `try_from_game_dir`: keep the entry with the
numerically greatest `u64` name (`y` preferred on ties), entries with
non-numeric names left as the accumulator says. -/
def locateStep (x : Except Error Seg) (y : Seg) : Except Error Seg :=
  match parseU64 y with
  | none => x
  | some yn =>
    match x with
    | .error _ => .ok y
    | .ok xv =>
      match parseU64 xv with
      | none => .ok y
      | some xn => if xn > yn then .ok xv else .ok y

/-- The fold of `try_from_game_dir` over the `bin` entries, started from
the `ResModsDirNotFound` accumulator. -/
def locateFold (entries : List Seg) : Except Error Seg :=
  entries.foldl locateStep (.error .resModsDirNotFound)

/-- The `res_mods` path component. -/
def resModsSeg : Seg := ['r', 'e', 's', '_', 'm', 'o', 'd', 's']

/-- `ModManager::try_from_game_dir`: scan `game_dir/bin`, pick the entry
with the numerically greatest name, root the handle at
`<entry>/res_mods`; `ResModsDirNotFound` when the listing succeeds but
nothing is numeric. A `read_dir` failure (`bin` absent/unreadable) is
propagated by the source's `std::fs::read_dir(...)?` as `Error::Io`. -/
def try_from_game_dir (binEntries : Option (List Seg)) :
    Except Error ModManager :=
  match binEntries with
  | none => .error .io
  | some es =>
    (locateFold es).map (fun name => { res_mods_path := [name, resModsSeg] })

/-! ## Progress and the task state machines

`Progress { current, max }` carries `u64` byte counts. The stored
fraction is an `f32` in the source; it is modelled as a rational: the
division result is exact at the counterexample below, and the interval
claims transfer to `f32` because `0`, `1` and `-1` are exactly
representable and rounding is monotone. -/

/-- The progress event payload `{ current, max }`. -/
structure Progress where
  current : Nat
  max : Nat
deriving Repr, DecidableEq

/-- The stored fraction computed by all three `update` methods:
`-1` when `max == 0`, otherwise `current / max`. -/
def progressFraction (p : Progress) : ℚ :=
  if p.max = 0 then -1 else (p.current : ℚ) / (p.max : ℚ)

/-- The pure task state shared by Download / Install / Uninstall
(`task::Handle` of the `Running` variant carries no data the state
machine reads, so it is dropped). -/
inductive TaskState where
  | running (progress : ℚ)
  | failed
  | finished
  | ready
deriving Repr, DecidableEq

/-- The update events delivered to a task: an incremental progress event
or a terminal result (kept abstract as success / failure for the state
transition, which only inspects `res.is_ok()`). -/
inductive TaskUpdate where
  | running (p : Progress)
  | finished (ok : Bool)
deriving Repr, DecidableEq

/-- The `update` method shared (textually repeated) by
`Download::update`, `Install::update` and `Uninstall::update`: a no-op
unless `Running`; a progress event stores the fraction; a terminal event
moves to `Finished` or `Failed`. -/
def taskUpdate (st : TaskState) (u : TaskUpdate) : TaskState :=
  match st with
  | .running _ =>
    match u with
    | .running p => .running (progressFraction p)
    | .finished ok => if ok then .finished else .failed
  | _ => st

/-! ## Task terminal results (`tasks/install.rs`, `tasks/uninstall.rs`)

The `Straw` success type is `ModManager`, the error type is
`(Error, ModManager)`; the `Task::sip` completion mapper folds both into
`Finished((Result<(), Error>, ModManager))`. -/

/-- `install_mod` of `tasks/install.rs` (the `"zip"` arm), given the
state the underlying `install_zip_mod` runs against: the handle is moved
into the operation and returned in both the success and the error
value. -/
def taskInstallMod (fs : FS) (man : Records) (entries : List Entry)
    (id : String) (version : String) (now : Nat) (mm : ModManager) :
    Except (Error × ModManager) ModManager :=
  match (install_zip_mod fs man entries id version now).1 with
  | .error e => .error (e, mm)
  | .ok _ => .ok mm

/-- `uninstall_mod` of `tasks/uninstall.rs`: same shape over the
uninstall operation. -/
def taskUninstallMod (fs : FS) (man : Records) (id : String)
    (mm : ModManager) : Except (Error × ModManager) ModManager :=
  match (uninstall_mod fs man id).1 with
  | .error e => .error (e, mm)
  | .ok _ => .ok mm

/-- The completion mapper passed to `Task::sip` in `Install::start` and
`Uninstall::start`: both arms produce a `Finished` pair that carries the
handle. -/
def finishedPair (res : Except (Error × ModManager) ModManager) :
    Except Error Unit × ModManager :=
  match res with
  | .ok mm => (.ok (), mm)
  | .error (e, mm) => (.error e, mm)

/-! ## The orchestrator dispatch loop (`Message::ModManagerReady`)

The handler in `app/update.rs` is a `loop` that pops the front of the
uninstall queue: a `Ready` entry is started (and pushed back `Running`),
any other entry is dropped and the loop repeats; once the uninstall
queue is empty the install queue is treated the same way; then the two
pending-refresh flags are consulted; finally the handle is parked. -/

/-- A queued task as the dispatcher sees it: its mod id and pure state. -/
structure TaskEntry where
  id : String
  st : TaskState
deriving Repr, DecidableEq

/-- What the dispatcher decides to do with the freed handle. -/
inductive DispatchAction where
  | startUninstall (id : String)
  | startInstall (id : String)
  | updateCurrentMods
  | updateRecords
  | park
deriving Repr, DecidableEq

/-- The orchestrator fields the `ModManagerReady` handler reads. -/
structure OrchState where
  uninstalls : List TaskEntry
  installs : List TaskEntry
  needCurrentModsUpdate : Bool
  needRecordsUpdate : Bool
deriving Repr, DecidableEq

/-- The install-queue half of the loop (reached once the uninstall queue
is empty): pop the front, start it when `Ready`, drop it otherwise. -/
def dispatchInstalls (installs : List TaskEntry)
    (needCur needRec : Bool) : DispatchAction :=
  match installs with
  | i :: rest =>
    if i.st = .ready then .startInstall i.id
    else dispatchInstalls rest needCur needRec
  | [] =>
    if needCur then .updateCurrentMods
    else if needRec then .updateRecords
    else .park

/-- The uninstall-queue half of the loop: pop the front, start it when
`Ready`, drop it otherwise; fall through to the install queue only once
the uninstall queue is empty. -/
def dispatchUninstalls (uninstalls installs : List TaskEntry)
    (needCur needRec : Bool) : DispatchAction :=
  match uninstalls with
  | u :: rest =>
    if u.st = .ready then .startUninstall u.id
    else dispatchUninstalls rest installs needCur needRec
  | [] => dispatchInstalls installs needCur needRec

/-- The `Message::ModManagerReady` loop: drain non-`Ready` entries off
the front of the uninstall queue until one can be started, then the
install queue, then the pending refreshes, then park. -/
def dispatch (s : OrchState) : DispatchAction :=
  dispatchUninstalls s.uninstalls s.installs s.needCurrentModsUpdate
    s.needRecordsUpdate

/-- The scheduling policy as the spec words it: only the front entry of
each queue is consulted, and a non-`Ready` front entry falls through to
the next rule. Stated for comparison with `dispatch`. -/
def dispatchSpec (s : OrchState) : DispatchAction :=
  match s.uninstalls with
  | u :: _ =>
    if u.st = .ready then .startUninstall u.id
    else
      match s.installs with
      | i :: _ =>
        if i.st = .ready then .startInstall i.id
        else
          if s.needCurrentModsUpdate then .updateCurrentMods
          else if s.needRecordsUpdate then .updateRecords
          else .park
      | [] =>
        if s.needCurrentModsUpdate then .updateCurrentMods
        else if s.needRecordsUpdate then .updateRecords
        else .park
  | [] =>
    match s.installs with
    | i :: _ =>
      if i.st = .ready then .startInstall i.id
      else
        if s.needCurrentModsUpdate then .updateCurrentMods
        else if s.needRecordsUpdate then .updateRecords
        else .park
    | [] =>
      if s.needCurrentModsUpdate then .updateCurrentMods
      else if s.needRecordsUpdate then .updateRecords
      else .park

/-! ## Manifest serialization (`records` / `write_records`)

Modelled from the spec: `write_records` serializes the `Records` value
with `serde_json::to_vec` and `records` parses it back with
`serde_json::from_slice`; the manifest is "JSON object, flattened map
from mod id to Record `{metadata, update_time, version, files}`". The
serde data model is embedded at the JSON-value level (the byte-level
JSON grammar is the external crate's concern): a `PathBuf` serializes as
its string, `Option<Metadata>` as `null` or the empty object, the
flattened map as the top-level object's fields. -/

/-- JSON values (booleans and fractional numbers are not needed by the
manifest encoding). -/
inductive Json where
  | null
  | str (s : List Char)
  | num (n : Nat)
  | arr (xs : List Json)
  | obj (fields : List (String × Json))

/-- A `PathBuf` serialized as its string: components joined by `/`. -/
def encodePath : Path → List Char
  | [] => []
  | [seg] => seg
  | seg :: rest => seg ++ '/' :: encodePath rest

/-- A `PathBuf` deserialized from a string: the component view of the
stored string (empty components dropped, as `Path::components` does). -/
def decodePath (s : List Char) : Path :=
  (splitSlash s).filter (fun seg => seg ≠ [])

/-- Modelled from the spec: serde encoding of one `Record`. -/
def encodeRecord (r : Record) : Json :=
  .obj
    [("metadata", match r.metadata with
      | none => .null
      | some _ => .obj []),
     ("update_time", .num r.update_time),
     ("version", .str r.version.toList),
     ("files", .arr (r.files.map (fun p => .str (encodePath p))))]

/-- Modelled from the spec: serde encoding of a `Records` value — the
flattened map becomes the fields of the top-level object. -/
def encodeRecords (rs : Records) : Json :=
  .obj (rs.map (fun kr => (kr.1, encodeRecord kr.2)))

/-- Decode one serialized path. -/
def decodeFileEntry : Json → Option Path
  | .str s => some (decodePath s)
  | _ => none

/-- Modelled from the spec: serde decoding of one `Record`. -/
def decodeRecord : Json → Option Record
  | .obj [("metadata", m), ("update_time", .num t), ("version", .str v),
      ("files", .arr fl)] =>
    match m with
    | .null =>
      (fl.mapM decodeFileEntry).map (fun files =>
        { metadata := none, update_time := t, version := ⟨v⟩,
          files := files })
    | .obj [] =>
      (fl.mapM decodeFileEntry).map (fun files =>
        { metadata := some (), update_time := t, version := ⟨v⟩,
          files := files })
    | _ => none
  | _ => none

/-- Modelled from the spec: serde decoding of a `Records` value. -/
def decodeRecords : Json → Option Records
  | .obj fields =>
    fields.mapM (fun kv => (decodeRecord kv.2).map (fun r => (kv.1, r)))
  | _ => none

/-- A path is a valid `PathBuf` component list: components are nonempty
and contain no separator. -/
def wfPath (p : Path) : Prop :=
  ∀ seg ∈ p, seg ≠ [] ∧ '/' ∉ seg

/-- A `Records` value whose recorded paths are valid component lists. -/
def wfRecords (rs : Records) : Prop :=
  ∀ kr ∈ rs, ∀ p ∈ kr.2.files, wfPath p

/-! ## Helper lemmas -/

/-- A failed lookup means no binding carries the key. -/
theorem lookup_none_keys (id : String) (man : Records)
    (h : List.lookup id man = none) : ∀ kr ∈ man, kr.1 ≠ id := by
  induction man with
  | nil => intro kr hkr; cases hkr
  | cons a rest ih =>
    intro kr hkr
    rw [List.lookup_cons] at h
    rcases List.mem_cons.mp hkr with rfl | hmem
    · intro he
      rw [he] at h
      simp at h
    · refine ih ?_ kr hmem
      cases hb : (id == a.1) with
      | true => rw [hb] at h; simp at h
      | false => rw [hb] at h; simpa using h

/-- Removing an id that has no binding leaves the manifest unchanged. -/
theorem recordsRemove_of_lookup_none (id : String) (man : Records)
    (h : List.lookup id man = none) : recordsRemove id man = man := by
  rw [recordsRemove, List.filter_eq_self]
  intro a ha
  simpa using lookup_none_keys id man h a ha

/-! ## Claim theorems -/

/-- Claim C9: uninstalling an id with no manifest record returns the
"nothing to do" result `false`, deletes no file, and leaves the manifest
mapping unchanged. -/
theorem uninstall_missing_id_is_noop (fs : FS) (man : Records)
    (id : String) (h : List.lookup id man = none) :
    uninstall_mod fs man id = (.ok false, fs, man) := by
  unfold uninstall_mod
  rw [h, recordsRemove_of_lookup_none id man h]

/-- Witness for C9 at a concrete empty manifest. -/
theorem uninstall_missing_id_is_noop_witness :
    uninstall_mod ⟨[], []⟩ [] "m1" = (.ok false, ⟨[], []⟩, []) :=
  uninstall_missing_id_is_noop ⟨[], []⟩ [] "m1" rfl

/-- Claim C10: when `install_zip_mod` fails with a `FileConflict`, no
queued directory-creation or file-copy has been executed: the file
system and the manifest returned by the failing install are exactly the
input ones. -/
theorem conflict_executes_no_write (fs : FS) (man : Records)
    (entries : List Entry) (id : String) (version : String) (now : Nat)
    (p : Path)
    (h : (install_zip_mod fs man entries id version now).1 =
      .error (.fileConflict p)) :
    install_zip_mod fs man entries id version now =
      (.error (.fileConflict p), fs, man) := by
  unfold install_zip_mod at h ⊢
  cases hs : scanEntries fs entries with
  | error e =>
    rw [hs] at h
    have he : e = Error.fileConflict p := by simpa using h
    subst he
    rfl
  | ok pr =>
    obtain ⟨fl, ops⟩ := pr
    rw [hs] at h
    simp at h

/-- Witness for C10 at a one-entry archive colliding with an existing
file. -/
theorem conflict_executes_no_write_witness :
    install_zip_mod ⟨[[['a']]], []⟩ [] [⟨['a']⟩] "m1" "1.0" 7 =
      (.error (.fileConflict [['a']]), ⟨[[['a']]], []⟩, []) :=
  conflict_executes_no_write ⟨[[['a']]], []⟩ [] [⟨['a']⟩] "m1" "1.0" 7
    [['a']] rfl

/-- Claim C3: the terminal result of an Install or Uninstall task always
carries the `ModManager` handle back to the caller — on the success path
and on the error path alike, the `Finished` pair's second component is
the handle the task was started with. -/
theorem terminal_result_carries_handle (fs : FS) (man : Records)
    (entries : List Entry) (id : String) (version : String) (now : Nat)
    (uid : String) (mm : ModManager) :
    (finishedPair (taskInstallMod fs man entries id version now mm)).2 =
      mm ∧
    (finishedPair (taskUninstallMod fs man uid mm)).2 = mm := by
  constructor
  · unfold taskInstallMod
    cases (install_zip_mod fs man entries id version now).1 <;>
      simp [finishedPair]
  · unfold taskUninstallMod
    cases (uninstall_mod fs man uid).1 <;> simp [finishedPair]

/-- Claim C7, counterexample: a progress event with `current = 2`,
`max = 1` applied to a running task stores the fraction `2`, which does
not lie in `[0, 1]` although `max > 0`. -/
theorem progress_fraction_above_one :
    taskUpdate (.running 0) (.running ⟨2, 1⟩) = .running 2 ∧
    (0:Nat) < (1:Nat) ∧ ¬((2:ℚ) ≤ 1) := by
  refine ⟨?_, by norm_num, by norm_num⟩
  simp [taskUpdate, progressFraction]

/-- Claim C7 (amended): for a progress event with `current ≤ max`
applied to a running task, the stored fraction is exactly `-1` when
`max = 0` and lies in `[0, 1]` when `max > 0`. -/
theorem progress_fraction_bounds (q : ℚ) (p : Progress)
    (h : p.current ≤ p.max) :
    taskUpdate (.running q) (.running p) =
      .running (progressFraction p) ∧
    (p.max = 0 → progressFraction p = -1) ∧
    (0 < p.max → 0 ≤ progressFraction p ∧ progressFraction p ≤ 1) := by
  refine ⟨by simp [taskUpdate], fun h0 => by simp [progressFraction, h0],
    fun hpos => ?_⟩
  have hne : p.max ≠ 0 := Nat.pos_iff_ne_zero.mp hpos
  unfold progressFraction
  rw [if_neg hne]
  constructor
  · positivity
  · rw [div_le_one (by exact_mod_cast hpos)]
    exact_mod_cast h

/-- Claim C4, counterexample: with a `Failed` entry at the front of the
uninstall queue followed by a `Ready` one, and a `Ready` entry at the
front of the install queue, the spec's front-entry policy selects the
install while the code's loop drops the `Failed` entry and starts the
later uninstall. -/
theorem dispatch_front_policy_fails :
    dispatch ⟨[⟨"u1", .failed⟩, ⟨"u2", .ready⟩], [⟨"i1", .ready⟩],
        false, false⟩ =
      .startUninstall "u2" ∧
    dispatchSpec ⟨[⟨"u1", .failed⟩, ⟨"u2", .ready⟩], [⟨"i1", .ready⟩],
        false, false⟩ =
      .startInstall "i1" ∧
    DispatchAction.startUninstall "u2" ≠
      DispatchAction.startInstall "i1" := by
  refine ⟨rfl, rfl, by simp⟩

/-- The install half of the dispatch loop starts the earliest `Ready`
entry of the queue (entries ahead of it are dropped). -/
theorem dispatchInstalls_eq (is : List TaskEntry) (nc nr : Bool) :
    dispatchInstalls is nc nr =
      match is.find? (fun t => decide (t.st = .ready)) with
      | some i => .startInstall i.id
      | none =>
        if nc then .updateCurrentMods
        else if nr then .updateRecords
        else .park := by
  induction is with
  | nil => rfl
  | cons i rest ih =>
    rw [dispatchInstalls, List.find?_cons]
    by_cases hi : i.st = TaskState.ready
    · simp [hi]
    · simp only [hi, if_false, decide_eq_true_eq, ih]
      simp [hi]

/-- Claim C4 (amended): when the handle becomes free the dispatcher
starts the earliest `Ready` entry of the Uninstall queue (non-`Ready`
entries ahead of it are dequeued and dropped); once the Uninstall queue
yields no `Ready` entry it does the same with the Install queue; else it
performs a pending current-mods refresh, else a pending records refresh,
else it parks the handle idle. -/
theorem dispatch_starts_earliest_ready (s : OrchState) :
    dispatch s =
      match s.uninstalls.find? (fun t => decide (t.st = .ready)) with
      | some u => .startUninstall u.id
      | none =>
        match s.installs.find? (fun t => decide (t.st = .ready)) with
        | some i => .startInstall i.id
        | none =>
          if s.needCurrentModsUpdate then .updateCurrentMods
          else if s.needRecordsUpdate then .updateRecords
          else .park := by
  obtain ⟨us, is, nc, nr⟩ := s
  simp only [dispatch]
  induction us with
  | nil => simpa using dispatchInstalls_eq is nc nr
  | cons u rest ih =>
    rw [dispatchUninstalls, List.find?_cons]
    by_cases hu : u.st = TaskState.ready
    · simp [hu]
    · simp only [hu, decide_eq_true_eq, if_false]
      simpa [hu] using ih

/-- A conflicting file entry anywhere in the archive makes the scan fail
with a `FileConflict` naming the sanitized path of a conflicting entry. -/
theorem scanEntries_conflict (fs : FS) (entries : List Entry)
    (h : ∃ e ∈ entries, e.isDir = false ∧
      fs.pathExists (sanitize_file_path e.filename) = true) :
    ∃ p, scanEntries fs entries = .error (.fileConflict p) ∧
      ∃ e ∈ entries, e.isDir = false ∧
        p = sanitize_file_path e.filename ∧ fs.pathExists p = true := by
  induction entries with
  | nil =>
    obtain ⟨e, he, _⟩ := h
    cases he
  | cons e0 rest ih =>
    by_cases hd : e0.isDir = true
    · have h' : ∃ e ∈ rest, e.isDir = false ∧
          fs.pathExists (sanitize_file_path e.filename) = true := by
        obtain ⟨e, he, hprops⟩ := h
        rcases List.mem_cons.mp he with rfl | hmem
        · rw [hd] at hprops
          simp at hprops
        · exact ⟨e, hmem, hprops⟩
      obtain ⟨p, hscan, e, hm, hprops⟩ := ih h'
      refine ⟨p, ?_, e, List.mem_cons_of_mem _ hm, hprops⟩
      rw [scanEntries, if_pos hd]
      by_cases hex : fs.pathExists (sanitize_file_path e0.filename) = true <;>
        simp [hex, hscan, Except.map]
    · rw [Bool.not_eq_true] at hd
      by_cases hex : fs.pathExists (sanitize_file_path e0.filename) = true
      · refine ⟨sanitize_file_path e0.filename, ?_,
          e0, List.mem_cons_self _ _, hd, rfl, hex⟩
        rw [scanEntries, if_neg (by simp [hd]), if_pos hex]
      · have h' : ∃ e ∈ rest, e.isDir = false ∧
            fs.pathExists (sanitize_file_path e.filename) = true := by
          obtain ⟨e, he, hprops⟩ := h
          rcases List.mem_cons.mp he with rfl | hmem
          · exact absurd hprops.2 hex
          · exact ⟨e, hmem, hprops⟩
        obtain ⟨p, hscan, e, hm, hprops⟩ := ih h'
        refine ⟨p, ?_, e, List.mem_cons_of_mem _ hm, hprops⟩
        rw [scanEntries, if_neg (by simp [hd]), if_neg hex]
        simp [hscan, Except.map]

/-- Claim C1: when some file entry's sanitized destination already
exists, the whole install fails with `FileConflict` carrying the
sanitized path of a conflicting file entry, and the manifest is not
updated — the returned mapping is the input one, so no record for `id`
is inserted or replaced. -/
theorem install_conflict_aborts_without_manifest_update (fs : FS)
    (man : Records) (entries : List Entry) (id : String)
    (version : String) (now : Nat)
    (h : ∃ e ∈ entries, e.isDir = false ∧
      fs.pathExists (sanitize_file_path e.filename) = true) :
    ∃ p, install_zip_mod fs man entries id version now =
        (.error (.fileConflict p), fs, man) ∧
      ∃ e ∈ entries, e.isDir = false ∧
        p = sanitize_file_path e.filename ∧ fs.pathExists p = true := by
  obtain ⟨p, hscan, hw⟩ := scanEntries_conflict fs entries h
  exact ⟨p, by rw [install_zip_mod, hscan], hw⟩

/-- Witness for C1: a one-entry archive whose file collides with the
existing file `a`. -/
theorem install_conflict_witness :
    ∃ p, install_zip_mod ⟨[[['a']]], []⟩ [] [⟨['a']⟩] "m1" "1.0" 7 =
        (.error (.fileConflict p), ⟨[[['a']]], []⟩, []) ∧
      ∃ e ∈ [Entry.mk ['a']], e.isDir = false ∧
        p = sanitize_file_path e.filename ∧
        FS.pathExists ⟨[[['a']]], []⟩ p = true :=
  install_conflict_aborts_without_manifest_update ⟨[[['a']]], []⟩ []
    [⟨['a']⟩] "m1" "1.0" 7
    ⟨⟨['a']⟩, List.mem_cons_self _ _, by decide, by decide⟩

/-- The deletion loop never touches directories. -/
theorem deleteFiles_dirs (ps : List Path) (fs : FS) :
    (deleteFiles fs ps).dirs = fs.dirs := by
  induction ps generalizing fs with
  | nil => rfl
  | cons p rest ih =>
    rw [deleteFiles]
    by_cases h1 : fs.pathExists p = true
    · by_cases h2 : fs.isDir p = true
      · simpa [h1, h2] using ih fs
      · simpa [h1, h2] using ih _
    · simpa [h1] using ih fs

/-- Membership in the files surviving the deletion loop: a file remains
iff it was there and is not a recorded non-directory path. -/
theorem deleteFiles_mem (ps : List Path) (fs : FS) (q : Path) :
    q ∈ (deleteFiles fs ps).files ↔
      q ∈ fs.files ∧ ¬(q ∈ ps ∧ q ∉ fs.dirs) := by
  induction ps generalizing fs with
  | nil => simp [deleteFiles]
  | cons p rest ih =>
    rw [deleteFiles]
    by_cases h1 : fs.pathExists p = true
    · by_cases h2 : fs.isDir p = true
      · rw [if_neg (by simp [h1]), if_pos h2, ih]
        have hpd : p ∈ fs.dirs := by
          simpa [FS.isDir] using h2
        by_cases hq : q = p
        · subst hq
          simp [hpd]
        · simp [List.mem_cons, hq]
      · rw [if_neg (by simp [h1]), if_neg h2, ih]
        have hpd : p ∉ fs.dirs := by
          simpa [FS.isDir] using h2
        by_cases hq : q = p
        · subst hq
          simp [hpd, List.mem_filter]
        · have hfq : q ∈ fs.files.filter (· ≠ p) ↔ q ∈ fs.files := by
            simp [List.mem_filter, hq]
          rw [hfq]
          simp [List.mem_cons, hq]
    · rw [if_pos (by simp [h1]), ih]
      have hpf : p ∉ fs.files := by
        intro hmem
        exact h1 (by simp [FS.pathExists, hmem])
      by_cases hq : q = p
      · subst hq
        simp [hpf]
      · simp [List.mem_cons, hq]

/-- Claim C2: uninstalling a present id deletes exactly the recorded
paths that exist as regular files, leaves directories and every
unrecorded file alone, leaves the manifest as it was, and reports that
removal occurred. -/
theorem uninstall_removes_exactly_recorded_files (fs : FS)
    (man : Records) (id : String) (r : Record)
    (h : List.lookup id man = some r) :
    uninstall_mod fs man id = (.ok true, deleteFiles fs r.files, man) ∧
    (deleteFiles fs r.files).dirs = fs.dirs ∧
    ∀ q, q ∈ (deleteFiles fs r.files).files ↔
      q ∈ fs.files ∧ ¬(q ∈ r.files ∧ q ∉ fs.dirs) := by
  refine ⟨?_, deleteFiles_dirs _ _, fun q => deleteFiles_mem _ _ _⟩
  rw [uninstall_mod, h]

/-- Witness for C2: the record for `"m1"` lists `a` (an existing file),
`d` (a directory) and `c` (absent); `a` is deleted, `b`, `d` survive. -/
theorem uninstall_removes_exactly_recorded_files_witness :
    uninstall_mod ⟨[[['a']], [['b']]], [[['d']]]⟩
        [("m1", ⟨none, 7, "1.0", [[['a']], [['d']], [['c']]]⟩)] "m1" =
      (.ok true,
        deleteFiles ⟨[[['a']], [['b']]], [[['d']]]⟩
          (Record.mk none 7 "1.0" [[['a']], [['d']], [['c']]]).files,
        [("m1", ⟨none, 7, "1.0", [[['a']], [['d']], [['c']]]⟩)]) ∧
    (deleteFiles ⟨[[['a']], [['b']]], [[['d']]]⟩
        (Record.mk none 7 "1.0" [[['a']], [['d']], [['c']]]).files).dirs =
      (FS.mk [[['a']], [['b']]] [[['d']]]).dirs ∧
    ∀ q, q ∈ (deleteFiles ⟨[[['a']], [['b']]], [[['d']]]⟩
        (Record.mk none 7 "1.0" [[['a']], [['d']], [['c']]]).files).files ↔
      q ∈ (FS.mk [[['a']], [['b']]] [[['d']]]).files ∧
        ¬(q ∈ (Record.mk none 7 "1.0" [[['a']], [['d']], [['c']]]).files ∧
          q ∉ (FS.mk [[['a']], [['b']]] [[['d']]]).dirs) :=
  uninstall_removes_exactly_recorded_files ⟨[[['a']], [['b']]], [[['d']]]⟩
    [("m1", ⟨none, 7, "1.0", [[['a']], [['d']], [['c']]]⟩)] "m1"
    ⟨none, 7, "1.0", [[['a']], [['d']], [['c']]]⟩ rfl

/-- A non-numeric entry leaves the locate accumulator unchanged. -/
theorem locateStep_none {x : Except Error Seg} {y : Seg}
    (hy : parseU64 y = none) : locateStep x y = x := by
  simp [locateStep, hy]

/-- Folding over entries none of which is numeric changes nothing. -/
theorem foldl_locateStep_all_none (es : List Seg)
    (acc : Except Error Seg) (h : ∀ e ∈ es, parseU64 e = none) :
    es.foldl locateStep acc = acc := by
  induction es generalizing acc with
  | nil => rfl
  | cons e rest ih =>
    rw [List.foldl_cons, locateStep_none (h e (List.mem_cons_self _ _))]
    exact ih acc fun f hf => h f (List.mem_cons_of_mem _ hf)

/-- Folding from a numeric accumulator yields a numeric entry whose
value dominates the accumulator and every numeric entry folded over. -/
theorem foldl_locateStep_ok (es : List Seg) :
    ∀ x vx, parseU64 x = some vx →
    ∃ y vy, es.foldl locateStep (.ok x) = .ok y ∧
      parseU64 y = some vy ∧ vx ≤ vy ∧
      (∀ f ∈ es, ∀ u, parseU64 f = some u → u ≤ vy) ∧
      (y = x ∨ y ∈ es) := by
  induction es with
  | nil =>
    intro x vx hx
    exact ⟨x, vx, rfl, hx, le_refl _, by simp, Or.inl rfl⟩
  | cons e rest ih =>
    intro x vx hx
    rw [List.foldl_cons]
    cases he : parseU64 e with
    | none =>
      rw [locateStep_none he]
      obtain ⟨y, vy, hfold, hpy, hle, hbound, hmem⟩ := ih x vx hx
      refine ⟨y, vy, hfold, hpy, hle, ?_, ?_⟩
      · intro f hf u hu
        rcases List.mem_cons.mp hf with rfl | hf'
        · rw [he] at hu
          cases hu
        · exact hbound f hf' u hu
      · rcases hmem with h' | h'
        · exact Or.inl h'
        · exact Or.inr (List.mem_cons_of_mem _ h')
    | some ve =>
      have hstep : locateStep (.ok x) e =
          if vx > ve then .ok x else .ok e := by
        simp [locateStep, he, hx]
      rw [hstep]
      by_cases hgt : vx > ve
      · rw [if_pos hgt]
        obtain ⟨y, vy, hfold, hpy, hle, hbound, hmem⟩ := ih x vx hx
        refine ⟨y, vy, hfold, hpy, hle, ?_, ?_⟩
        · intro f hf u hu
          rcases List.mem_cons.mp hf with rfl | hf'
          · rw [he] at hu
            injection hu with hv
            omega
          · exact hbound f hf' u hu
        · rcases hmem with h' | h'
          · exact Or.inl h'
          · exact Or.inr (List.mem_cons_of_mem _ h')
      · rw [if_neg hgt]
        obtain ⟨y, vy, hfold, hpy, hle, hbound, hmem⟩ := ih e ve he
        refine ⟨y, vy, hfold, hpy, by omega, ?_, ?_⟩
        · intro f hf u hu
          rcases List.mem_cons.mp hf with rfl | hf'
          · rw [he] at hu
            injection hu with hv
            omega
          · exact hbound f hf' u hu
        · rcases hmem with rfl | h'
          · exact Or.inr (List.mem_cons_self _ _)
          · exact Or.inr (List.mem_cons_of_mem _ h')

/-- With at least one numeric entry, the locate fold picks a numeric
entry achieving the maximal parsed value. -/
theorem locateFold_ok_of_numeric (es : List Seg) :
    ∀ e0 v0, e0 ∈ es → parseU64 e0 = some v0 →
    ∃ y vy, locateFold es = .ok y ∧ parseU64 y = some vy ∧ y ∈ es ∧
      ∀ f ∈ es, ∀ u, parseU64 f = some u → u ≤ vy := by
  induction es with
  | nil =>
    intro e0 v0 h0
    cases h0
  | cons e rest ih =>
    intro e0 v0 h0 hp
    rw [locateFold, List.foldl_cons]
    cases he : parseU64 e with
    | some ve =>
      have hstep : locateStep (.error .resModsDirNotFound) e = .ok e := by
        simp [locateStep, he]
      rw [hstep]
      obtain ⟨y, vy, hfold, hpy, hle, hbound, hmem⟩ :=
        foldl_locateStep_ok rest e ve he
      refine ⟨y, vy, hfold, hpy, ?_, ?_⟩
      · rcases hmem with rfl | h'
        · exact List.mem_cons_self _ _
        · exact List.mem_cons_of_mem _ h'
      · intro f hf u hu
        rcases List.mem_cons.mp hf with rfl | hf'
        · rw [he] at hu
          injection hu with hv
          omega
        · exact hbound f hf' u hu
    | none =>
      rw [locateStep_none he]
      have h0' : e0 ∈ rest := by
        rcases List.mem_cons.mp h0 with rfl | h'
        · rw [he] at hp
          cases hp
        · exact h'
      obtain ⟨y, vy, hfold, hpy, hmem, hbound⟩ := ih e0 v0 h0' hp
      rw [locateFold] at hfold
      refine ⟨y, vy, hfold, hpy, List.mem_cons_of_mem _ hmem, ?_⟩
      intro f hf u hu
      rcases List.mem_cons.mp hf with rfl | hf'
      · rw [he] at hu
        cases hu
      · exact hbound f hf' u hu

/-- Claim C5, counterexample: when the `bin` listing cannot be read
(`bin` absent/unreadable), `try_from_game_dir` fails with the
propagated `Error::Io` — not with `ResModsDirNotFound` as the claim
states. -/
theorem try_from_game_dir_io_on_failed_listing :
    try_from_game_dir none = .error .io ∧
    Error.io ≠ Error.resModsDirNotFound :=
  ⟨rfl, by decide⟩

/-- Claim C5 (amended): `try_from_game_dir` fails with
`ResModsDirNotFound` when the `bin` listing is readable but contains no
numerically-named entry, and propagates a failed listing (`bin`
absent/unreadable) as an `Io` error; when a numeric entry exists it
returns the handle rooted at `<build>/res_mods` where `<build>` is an
entry whose name parses to the numerically greatest value among all
entries. -/
theorem try_from_game_dir_spec (es : List Seg) (e0 : Seg) (v0 : Nat)
    (h0 : e0 ∈ es) (hp : parseU64 e0 = some v0) :
    try_from_game_dir none = .error .io ∧
    (∀ ns : List Seg, (∀ e ∈ ns, parseU64 e = none) →
      try_from_game_dir (some ns) = .error .resModsDirNotFound) ∧
    ∃ name vy, try_from_game_dir (some es) =
        .ok { res_mods_path := [name, resModsSeg] } ∧
      name ∈ es ∧ parseU64 name = some vy ∧
      ∀ f ∈ es, ∀ u, parseU64 f = some u → u ≤ vy := by
  refine ⟨rfl, ?_, ?_⟩
  · intro ns hns
    rw [try_from_game_dir, locateFold,
      foldl_locateStep_all_none ns _ hns]
    rfl
  · obtain ⟨y, vy, hfold, hpy, hmem, hbound⟩ :=
      locateFold_ok_of_numeric es e0 v0 h0 hp
    refine ⟨y, vy, ?_, hmem, hpy, hbound⟩
    rw [try_from_game_dir, hfold]
    rfl

/-- Witness for the amended C5 on the listing `["1", "x", "2"]`. -/
theorem try_from_game_dir_spec_witness :
    try_from_game_dir none = .error .io ∧
    (∀ ns : List Seg, (∀ e ∈ ns, parseU64 e = none) →
      try_from_game_dir (some ns) = .error .resModsDirNotFound) ∧
    ∃ name vy, try_from_game_dir (some [['1'], ['x'], ['2']]) =
        .ok { res_mods_path := [name, resModsSeg] } ∧
      name ∈ [['1'], ['x'], ['2']] ∧ parseU64 name = some vy ∧
      ∀ f ∈ [['1'], ['x'], ['2']], ∀ u, parseU64 f = some u → u ≤ vy :=
  try_from_game_dir_spec [['1'], ['x'], ['2']] ['1'] 1
    (List.mem_cons_self _ _) (by decide)

/-- No sanitized segment keeps an illegal filesystem character. -/
theorem sanitizeSegment_no_illegal (s : Seg) :
    ∀ c ∈ sanitizeSegment s, isIllegalChar c = false := by
  intro c hc
  simp only [sanitizeSegment] at hc
  split at hc
  · cases hc
  · rw [List.mem_filter] at hc
    have := hc.2
    simp only [Bool.not_eq_true'] at this
    exact (Bool.or_eq_false_iff.mp this).1

/-- No segment sanitizes to the traversal segment `..`. -/
theorem sanitizeSegment_not_dotdot (s : Seg) :
    sanitizeSegment s ≠ ['.', '.'] := by
  simp only [sanitizeSegment]
  split
  · simp
  · rename_i hcond
    intro he
    exact hcond ⟨by rw [he]; simp, by rw [he]; rfl⟩

/-- Every component of a sanitized archive path is traversal-free and
free of illegal characters. -/
theorem sanitize_file_path_components (s : List Char) :
    ∀ seg ∈ sanitize_file_path s,
      seg ≠ ['.', '.'] ∧ ∀ c ∈ seg, isIllegalChar c = false := by
  intro seg hseg
  rw [sanitize_file_path, List.mem_filter] at hseg
  obtain ⟨hmem, -⟩ := hseg
  rw [List.mem_map] at hmem
  obtain ⟨t, -, rfl⟩ := hmem
  exact ⟨sanitizeSegment_not_dotdot t, sanitizeSegment_no_illegal t⟩

/-- A successful scan records exactly the sanitized entry paths, in
archive entry order. -/
theorem scanEntries_ok_files (fs : FS) (entries : List Entry) :
    ∀ fl ops, scanEntries fs entries = .ok (fl, ops) →
      fl = entries.map fun e => sanitize_file_path e.filename := by
  induction entries with
  | nil =>
    intro fl ops h
    rw [scanEntries] at h
    simp only [Except.ok.injEq, Prod.mk.injEq] at h
    rw [← h.1, List.map_nil]
  | cons e rest ih =>
    intro fl ops h
    simp only [scanEntries] at h
    rw [List.map_cons]
    by_cases hd : e.isDir = true
    · rw [if_pos hd] at h
      by_cases hex : fs.pathExists (sanitize_file_path e.filename) = true
      · rw [if_pos hex] at h
        cases hs : scanEntries fs rest with
        | error err =>
          rw [hs] at h
          simp [Except.map] at h
        | ok pr =>
          obtain ⟨fl', ops'⟩ := pr
          rw [hs] at h
          simp only [Except.map, Except.ok.injEq, Prod.mk.injEq] at h
          rw [← h.1, ih fl' ops' hs]
      · rw [if_neg hex] at h
        cases hs : scanEntries fs rest with
        | error err =>
          rw [hs] at h
          simp [Except.map] at h
        | ok pr =>
          obtain ⟨fl', ops'⟩ := pr
          rw [hs] at h
          simp only [Except.map, Except.ok.injEq, Prod.mk.injEq] at h
          rw [← h.1, ih fl' ops' hs]
    · rw [if_neg hd] at h
      by_cases hex : fs.pathExists (sanitize_file_path e.filename) = true
      · rw [if_pos hex] at h
        cases h
      · rw [if_neg hex] at h
        cases hs : scanEntries fs rest with
        | error err =>
          rw [hs] at h
          simp [Except.map] at h
        | ok pr =>
          obtain ⟨fl', ops'⟩ := pr
          rw [hs] at h
          simp only [Except.map, Except.ok.injEq, Prod.mk.injEq] at h
          rw [← h.1, ih fl' ops' hs]

/-- Looking up the id just inserted returns the inserted record. -/
theorem lookup_recordsInsert (id : String) (r : Record)
    (man : Records) :
    List.lookup id (recordsInsert id r man) = some r := by
  rw [recordsInsert, List.lookup_cons]
  simp

/-- Claim C6: sanitization normalizes backslashes and sanitizes each
segment independently, so no component of a sanitized path is the
traversal segment `..` or carries an illegal filesystem character; and a
successful install's record lists exactly the sanitized relative paths
of all archive entries, in archive entry order. -/
theorem install_records_sanitized_paths (fs : FS) (man : Records)
    (entries : List Entry) (id : String) (version : String) (now : Nat)
    (fs' : FS) (man' : Records)
    (h : install_zip_mod fs man entries id version now =
      (.ok (), fs', man')) :
    (∀ s : List Char, ∀ seg ∈ sanitize_file_path s,
      seg ≠ ['.', '.'] ∧ ∀ c ∈ seg, isIllegalChar c = false) ∧
    ∃ r, List.lookup id man' = some r ∧
      r.files = entries.map fun e => sanitize_file_path e.filename := by
  refine ⟨fun s => sanitize_file_path_components s, ?_⟩
  rw [install_zip_mod] at h
  cases hs : scanEntries fs entries with
  | error err =>
    rw [hs] at h
    cases h
  | ok pr =>
    obtain ⟨fl, ops⟩ := pr
    rw [hs] at h
    simp only [Prod.mk.injEq] at h
    obtain ⟨-, -, hman⟩ := h
    refine ⟨⟨none, now, version, fl⟩, ?_,
      scanEntries_ok_files fs entries fl ops hs⟩
    rw [← hman, lookup_recordsInsert]

/-- Witness for C6: installing the one-file archive `["a"]` into an
empty directory. -/
theorem install_records_sanitized_paths_witness :
    (∀ s : List Char, ∀ seg ∈ sanitize_file_path s,
      seg ≠ ['.', '.'] ∧ ∀ c ∈ seg, isIllegalChar c = false) ∧
    ∃ r, List.lookup "m1"
        [("m1", Record.mk none 7 "1.0" [[['a']]])] = some r ∧
      r.files = [Entry.mk ['a']].map fun e =>
        sanitize_file_path e.filename :=
  install_records_sanitized_paths ⟨[], []⟩ [] [⟨['a']⟩] "m1" "1.0" 7
    ⟨[[['a']]], []⟩ [("m1", ⟨none, 7, "1.0", [[['a']]]⟩)] rfl

/-- Witness for the amended C7 at the event `{current := 1, max := 2}`. -/
theorem progress_fraction_bounds_witness :
    taskUpdate (.running 0) (.running ⟨1, 2⟩) =
      .running (progressFraction ⟨1, 2⟩) ∧
    ((Progress.mk 1 2).max = 0 → progressFraction ⟨1, 2⟩ = -1) ∧
    (0 < (Progress.mk 1 2).max →
      0 ≤ progressFraction ⟨1, 2⟩ ∧ progressFraction ⟨1, 2⟩ ≤ 1) :=
  progress_fraction_bounds 0 ⟨1, 2⟩ (by norm_num)

/-- Splitting a separator-free string yields that one component. -/
theorem splitSlash_no_slash (s : List Char) (h : '/' ∉ s) :
    splitSlash s = [s] := by
  induction s with
  | nil => rfl
  | cons c cs ih =>
    have hc : ¬c = '/' := fun he => h (he ▸ List.mem_cons_self _ _)
    simp only [splitSlash, if_neg hc,
      ih fun hm => h (List.mem_cons_of_mem _ hm)]

/-- Splitting `a ++ "/" ++ b` with `a` separator-free peels off `a`. -/
theorem splitSlash_append (a b : List Char) (h : '/' ∉ a) :
    splitSlash (a ++ '/' :: b) = a :: splitSlash b := by
  induction a with
  | nil => simp [splitSlash]
  | cons c cs ih =>
    have hc : ¬c = '/' := fun he => h (he ▸ List.mem_cons_self _ _)
    rw [List.cons_append]
    simp only [splitSlash, if_neg hc,
      ih fun hm => h (List.mem_cons_of_mem _ hm)]

/-- Serializing a well-formed path and reading it back through the
component view restores the path. -/
theorem decodePath_encodePath (p : Path) (h : wfPath p) :
    decodePath (encodePath p) = p := by
  induction p with
  | nil => rfl
  | cons seg rest ih =>
    cases rest with
    | nil =>
      obtain ⟨hne, hns⟩ := h seg (List.mem_cons_self _ _)
      rw [encodePath, decodePath, splitSlash_no_slash seg hns]
      simp [hne]
    | cons seg2 rest2 =>
      obtain ⟨hne, hns⟩ := h seg (List.mem_cons_self _ _)
      have hwf : wfPath (seg2 :: rest2) :=
        fun t ht => h t (List.mem_cons_of_mem _ ht)
      have hrest : decodePath (encodePath (seg2 :: rest2)) =
          seg2 :: rest2 := ih hwf
      rw [decodePath] at hrest
      rw [encodePath, decodePath, splitSlash_append _ _ hns,
        List.filter_cons_of_pos (by simp [hne]), hrest]
      intro hc
      cases hc

/-- Decoding the serialized `files` array restores the path list. -/
theorem mapM_decodeFiles (files : List Path)
    (h : ∀ p ∈ files, wfPath p) :
    (files.map fun p => Json.str (encodePath p)).mapM decodeFileEntry =
      some files := by
  induction files with
  | nil => rfl
  | cons p rest ih =>
    rw [List.map_cons, List.mapM_cons]
    have hp : decodeFileEntry (Json.str (encodePath p)) = some p := by
      rw [decodeFileEntry, decodePath_encodePath p
        (h p (List.mem_cons_self _ _))]
    rw [hp, ih fun t ht => h t (List.mem_cons_of_mem _ ht)]
    rfl

/-- Decoding an encoded record restores the record. -/
theorem decodeRecord_encodeRecord (r : Record)
    (h : ∀ p ∈ r.files, wfPath p) :
    decodeRecord (encodeRecord r) = some r := by
  obtain ⟨meta, t, v, files⟩ := r
  obtain ⟨vdata⟩ := v
  cases meta with
  | none =>
    rw [encodeRecord, decodeRecord]
    rw [mapM_decodeFiles files h]
    rfl
  | some u =>
    cases u
    rw [encodeRecord, decodeRecord]
    rw [mapM_decodeFiles files h]
    rfl

/-- Claim C8: serializing a `Records` value with `write_records` and
parsing it back with `records` restores the mapping exactly — the same
bindings, hence the same key set and for each key an equal `version`,
`update_time` and `files` sequence (paths are required to be valid
`PathBuf` component lists, as every `PathBuf` is). -/
theorem records_roundtrip (rs : Records) (h : wfRecords rs) :
    decodeRecords (encodeRecords rs) = some rs := by
  induction rs with
  | nil => rfl
  | cons kr rest ih =>
    obtain ⟨k, r⟩ := kr
    rw [encodeRecords, List.map_cons, decodeRecords, List.mapM_cons]
    have hr : decodeRecord (encodeRecord r) = some r :=
      decodeRecord_encodeRecord r fun p hp =>
        h (k, r) (List.mem_cons_self _ _) p hp
    rw [hr]
    have hrest : decodeRecords (encodeRecords rest) = some rest :=
      ih fun kr hkr p hp => h kr (List.mem_cons_of_mem _ hkr) p hp
    rw [encodeRecords, decodeRecords] at hrest
    simp only [Option.map_some]
    rw [hrest]
    rfl

/-- Witness for C8 on a one-record manifest with a nested path. -/
theorem records_roundtrip_witness :
    decodeRecords (encodeRecords
        [("m1", Record.mk none 7 "1.0" [[['a']], [['d'], ['b']]])]) =
      some [("m1", Record.mk none 7 "1.0" [[['a']], [['d'], ['b']]])] :=
  records_roundtrip [("m1", ⟨none, 7, "1.0", [[['a']], [['d'], ['b']]]⟩)]
    (by unfold wfRecords wfPath; decide)

end KMM
